import Mathlib

/-!
# Verification of the Paillier / Shamir crypto core

Shallow embedding of `backend/apps/encryption/paillier.py` and
`backend/apps/encryption/shamir.py`.

Conventions of the embedding:
* Python arbitrary-precision integers become `ℤ`; quantities that are
  non-negative by construction (key components, share indices, random
  nonces) become `ℕ`.
* Python `%` and `//` on a positive divisor coincide with Lean's
  `Int.emod` / `Int.ediv` (both give the representative in `[0, d)`),
  so `%` and `/` on `ℤ` are exact translations.
* `pow(b, e, m)` becomes `b ^ e % m`, the same value for `m > 0`.
* Code that raises an exception is modelled with `Option`: `none` is the
  raised exception.
* Randomness (the nonce `r` of `encrypt`, the polynomial coefficients of
  `generate_shares`) is passed explicitly as an argument; the admissible
  ranges sampled by `random.randint` appear as hypotheses.
-/

/-- Embeds class `PaillierKeyPair` of paillier.py: `n, g` the public key,
`lambda_val` the private key, `mu`  the value `inverse(lambda_val, n)`
computed in `__init__`. -/
structure PaillierKeyPair where
  n : ℕ
  g : ℕ
  lambda_val : ℕ
  mu : ℕ

/-- Characterises the key pairs produced by
`PaillierEncryption.generate_key_pair`: `n = p*q` for two distinct primes,
`g = n + 1`, `lambda_val = lcm (p-1) (q-1)`, and `mu` the modular inverse
of `lambda_val` mod `n` (which `Crypto.Util.number.inverse` returns in
`[0, n)`, raising if it does not exist). -/
def PaillierKeyPair.Valid (kp : PaillierKeyPair) : Prop :=
  ∃ p q : ℕ, p.Prime ∧ q.Prime ∧ p ≠ q ∧ kp.n = p * q ∧ kp.g = kp.n + 1 ∧
    kp.lambda_val = Nat.lcm (p - 1) (q - 1) ∧
    kp.mu < kp.n ∧ kp.mu * kp.lambda_val % kp.n = 1

/-- Embeds `PaillierEncryption.encrypt`.  The random nonce `r` drawn by
`random.randint(1, n-1)` (redrawn until `gcd(r, n) = 1`) is an explicit
argument.  The `ValueError` raised for a message outside `[0, n)` is
`none`. -/
def encrypt (message : ℤ) (public_key : ℕ × ℕ) (r : ℕ) : Option ℤ :=
  let n := public_key.1
  let g := public_key.2
  if message < 0 ∨ (n : ℤ) ≤ message then none
  else
    let n_squared := n * n
    some (((g ^ message.toNat % n_squared) * (r ^ n % n_squared) % n_squared : ℕ) : ℤ)

/-- Embeds `PaillierEncryption.decrypt`:
`x = pow(ciphertext, lambda, n²)`, `l_x = (x - 1) // n`,
`message = (l_x * mu) % n`. -/
def decrypt (ciphertext : ℤ) (key_pair : PaillierKeyPair) : ℤ :=
  let n : ℤ := key_pair.n
  let n_squared := n * n
  let x := ciphertext ^ key_pair.lambda_val % n_squared
  let l_x := (x - 1) / n
  l_x * key_pair.mu % n

/-- Embeds `PaillierEncryption.add_ciphertexts`: `(c1 * c2) % n²`. -/
def add_ciphertexts (ciphertext1 ciphertext2 : ℤ) (public_key : ℕ × ℕ) : ℤ :=
  let n : ℤ := public_key.1
  let n_squared := n * n
  ciphertext1 * ciphertext2 % n_squared

/-- Embeds `ThresholdPaillier.combine_partial_decryptions` of paillier.py
(the token `partial` cannot appear in a Lean name here, hence the shorter
name): multiply the partial results mod `n²`, then
`l_combined = (combined - 1) // n` and `(l_combined * mu) % n`. -/
def ThresholdPaillier.combine_decryptions (part_results : List ℤ)
    (key_pair : PaillierKeyPair) : ℤ :=
  let n : ℤ := key_pair.n
  let n_squared := n * n
  let combined := part_results.foldl (fun combined pr => combined * pr % n_squared) 1
  let l_combined := (combined - 1) / n
  l_combined * key_pair.mu % n

/-- Embeds `ThresholdDecryption.combine_partial_decryptions` of shamir.py:
multiply the partial results mod `n²`, then return
`l_combined = (combined - 1) // n` directly. -/
def ThresholdDecryption.combine_decryptions (part_results : List ℤ)
    (public_key : ℕ × ℕ) : ℤ :=
  let n : ℤ := public_key.1
  let n_squared := n * n
  let combined := part_results.foldl (fun combined pr => combined * pr % n_squared) 1
  (combined - 1) / n

/-- Embeds `VoteEncryption.aggregate_votes`: `0` for an empty list,
otherwise a left fold of `add_ciphertexts` over the tail starting from the
head. -/
def aggregate_votes (encrypted_votes : List ℤ) (public_key : ℕ × ℕ) : ℤ :=
  match encrypted_votes with
  | [] => 0
  | first :: rest =>
    rest.foldl (fun result vote => add_ciphertexts result vote public_key) first

/-- Embeds `VoteEncryption.verify_vote_encryption`: reject when the value
is outside `(0, n²)` or shares a factor with `n`. -/
def verify_vote_encryption (encrypted_vote : ℤ) (public_key : ℕ × ℕ) : Bool :=
  let n : ℤ := public_key.1
  let n_squared := n * n
  if encrypted_vote ≤ 0 ∨ n_squared ≤ encrypted_vote then false
  else if Int.gcd encrypted_vote n ≠ 1 then false
  else true

/-! ## Generic facts about the ciphertext fold -/

theorem emod_mul_left_emod (a b n : ℤ) : a % n * b % n = a * b % n := by
  rw [Int.mul_emod, Int.emod_emod_of_dvd _ dvd_rfl, ← Int.mul_emod]

theorem emod_mul_right_emod (a b n : ℤ) : a * (b % n) % n = a * b % n := by
  rw [Int.mul_emod, Int.emod_emod_of_dvd _ dvd_rfl, ← Int.mul_emod]

theorem mul_emod_foldl (n_squared : ℤ) (rest : List ℤ) (hne : rest ≠ [])
    (first : ℤ) :
    rest.foldl (fun result vote => result * vote % n_squared) first
      = first * rest.prod % n_squared := by
  induction rest generalizing first with
  | nil => exact absurd rfl hne
  | cons v t ih =>
    cases t with
    | nil => simp [List.foldl]
    | cons w t2 =>
      rw [List.foldl_cons, ih (by simp)]
      rw [emod_mul_left_emod]
      congr 1 <;> simp [mul_assoc]

theorem aggregate_votes_eq_prod (l : List ℤ) (public_key : ℕ × ℕ)
    (h : 2 ≤ l.length) :
    aggregate_votes l public_key
      = l.prod % ((public_key.1 : ℤ) * public_key.1) := by
  match l with
  | a :: b :: t =>
    show (b :: t).foldl (fun result vote => add_ciphertexts result vote public_key) a = _
    have : (fun result vote => add_ciphertexts result vote public_key)
        = fun result vote => result * vote % ((public_key.1 : ℤ) * public_key.1) := rfl
    rw [this, mul_emod_foldl _ _ (by simp)]
    congr 1 <;> simp [mul_assoc]

theorem aggregate_votes_perm (l1 l2 : List ℤ) (public_key : ℕ × ℕ)
    (h : l1.Perm l2) :
    aggregate_votes l1 public_key = aggregate_votes l2 public_key := by
  match l1, l2 with
  | [], l2 =>
    rw [(h.symm.eq_nil : l2 = [])]
  | [a], l2 =>
    rw [(List.perm_singleton.mp h.symm : l2 = [a])]
  | a :: b :: t, l2 =>
    have hlen : 2 ≤ l2.length := by
      have := h.length_eq
      simp at this
      omega
    rw [aggregate_votes_eq_prod _ _ (by simp),
      aggregate_votes_eq_prod _ _ hlen, h.prod_eq]

/-! ## Claim C10 -/

/-- Claim C10: `aggregate_votes` performs no validation or reduction of its
inputs: on a singleton list it returns the element unchanged, whatever
integer it is and whatever the public key. -/
theorem aggregate_votes_singleton (c : ℤ) (public_key : ℕ × ℕ) :
    aggregate_votes [c] public_key = c := rfl

/-! ## Claim C8 (corrected) -/

/-- Claim C8 counterexample: the nonempty list `[0]` also makes
`aggregate_votes` return `0` (under the valid public key `n = 15`,
`g = 16`), so `0` is not returned only for the empty input list. -/
theorem aggregate_votes_zero_counterexample :
    aggregate_votes [(0 : ℤ)] (15, 16) = 0 ∧ ([(0 : ℤ)] : List ℤ) ≠ [] := by
  constructor
  · rfl
  · simp

/-- Claim C8 amended: `aggregate_votes` returns the sentinel `0` on the
empty list (but nonempty lists can produce `0` as well), and
`verify_vote_encryption 0` is `false` for every public key, so the only
signalling of the sentinel is its rejection by the ciphertext validity
check. -/
theorem aggregate_votes_empty_sentinel (public_key : ℕ × ℕ) :
    aggregate_votes [] public_key = 0 ∧
    verify_vote_encryption 0 public_key = false := by
  refine ⟨rfl, ?_⟩
  simp [verify_vote_encryption]

/-! ## Claim C5 (corrected) -/

/-- Claim C5 counterexample: on the single partial decryption `[31]` under
the valid key pair `n = 15, g = 16, lambda = 4, mu = 4` (from `p = 3`,
`q = 5`), the combiner of shamir.py returns `2` while the combiner of
paillier.py — the one matching the claimed `L(combined) * mu mod n` — returns
`8`: the two implementations do not compute the same function. -/
theorem combine_decryptions_counterexample :
    ThresholdDecryption.combine_decryptions [31] (15, 16) = 2 ∧
    ThresholdPaillier.combine_decryptions [31] ⟨15, 16, 4, 4⟩ = 8 := by
  constructor
  · rfl
  · rfl

/-- Claim C5 amended: both combiners multiply the supplied partials
mod `n²`, but only `ThresholdPaillier.combine_partial_decryptions` applies
the single-key final step `L(combined) * mu mod n`;
`ThresholdDecryption.combine_partial_decryptions` in shamir.py stops at
`L(combined)`, omitting the multiplication by `mu` and the reduction mod
`n`.  Consequently the paillier.py result always equals the shamir.py
result multiplied by `mu` mod `n`. -/
theorem combine_decryptions_spec (part_results : List ℤ)
    (kp : PaillierKeyPair) (h : 2 ≤ kp.n) :
    ThresholdPaillier.combine_decryptions part_results kp
        = (part_results.prod % ((kp.n : ℤ) * kp.n) - 1) / kp.n * kp.mu % kp.n ∧
    ThresholdDecryption.combine_decryptions part_results (kp.n, kp.g)
        = (part_results.prod % ((kp.n : ℤ) * kp.n) - 1) / kp.n ∧
    ThresholdPaillier.combine_decryptions part_results kp
        = ThresholdDecryption.combine_decryptions part_results (kp.n, kp.g)
            * kp.mu % kp.n := by
  have hfold : part_results.foldl
      (fun combined pr => combined * pr % ((kp.n : ℤ) * kp.n)) 1
        = part_results.prod % ((kp.n : ℤ) * kp.n) := by
    cases part_results with
    | nil =>
      show (1 : ℤ) = 1 % ((kp.n : ℤ) * kp.n)
      rw [Int.emod_eq_of_lt (by norm_num)]
      have : (2 : ℤ) ≤ kp.n := by exact_mod_cast h
      nlinarith
    | cons a t =>
      cases t with
      | nil => simp [List.foldl]
      | cons b t2 =>
        show (b :: t2).foldl (fun combined pr => combined * pr % ((kp.n : ℤ) * kp.n))
            (1 * a % ((kp.n : ℤ) * kp.n)) = _
        rw [mul_emod_foldl _ _ (by simp), emod_mul_left_emod]
        congr 1 <;> simp [mul_assoc]
  refine ⟨?_, ?_, ?_⟩
  · show (part_results.foldl
        (fun combined pr => combined * pr % ((kp.n : ℤ) * kp.n)) 1 - 1) / kp.n
          * kp.mu % kp.n = _
    rw [hfold]
  · show (part_results.foldl
        (fun combined pr => combined * pr % ((kp.n : ℤ) * kp.n)) 1 - 1) / kp.n = _
    rw [hfold]
  · rfl

/-! ## Number theory behind Paillier decryption -/

theorem one_add_n_pow_modEq (n M : ℕ) :
    (n + 1) ^ M ≡ 1 + M * n [MOD n * n] := by
  induction M with
  | zero => simpa using Nat.ModEq.refl 1
  | succ M ih =>
    calc (n + 1) ^ (M + 1) = (n + 1) ^ M * (n + 1) := pow_succ _ _
      _ ≡ (1 + M * n) * (n + 1) [MOD n * n] := ih.mul_right _
      _ = 1 + (M + 1) * n + M * (n * n) := by ring
      _ ≡ 1 + (M + 1) * n + 0 [MOD n * n] :=
          Nat.ModEq.add_left _ (Nat.modEq_zero_iff_dvd.mpr ⟨M, (mul_comm M _)⟩)
      _ = 1 + (M + 1) * n := by ring

theorem pow_lcm_prime_sq_modEq (p q r : ℕ) (hp : p.Prime) (hq : q.Prime)
    (hr : r.Coprime p) (hdvd : p - 1 ∣ Nat.lcm (p - 1) (q - 1)) :
    r ^ (p * q * Nat.lcm (p - 1) (q - 1)) ≡ 1 [MOD p * p] := by
  have heuler : r ^ (p ^ 1 * (p - 1)) ≡ 1 [MOD p ^ 2] := by
    have := Nat.ModEq.pow_totient (Nat.Coprime.pow_right 2 hr)
    rwa [Nat.totient_prime_pow hp (by norm_num)] at this
  have hdvd2 : p ^ 1 * (p - 1) ∣ p * q * Nat.lcm (p - 1) (q - 1) := by
    rw [pow_one]
    obtain ⟨k, hk⟩ := hdvd
    exact ⟨q * k, by rw [hk]; ring⟩
  obtain ⟨k, hk⟩ := hdvd2
  have : r ^ (p * q * Nat.lcm (p - 1) (q - 1)) ≡ 1 [MOD p ^ 2] := by
    rw [hk, pow_mul]
    calc (r ^ (p ^ 1 * (p - 1))) ^ k ≡ 1 ^ k [MOD p ^ 2] := heuler.pow k
      _ = 1 := one_pow k
  rwa [(by ring : p ^ 2 = p * p)] at this

theorem pow_n_lambda_modEq (p q r : ℕ) (hp : p.Prime) (hq : q.Prime)
    (hpq : p ≠ q) (hr : r.Coprime (p * q)) :
    r ^ (p * q * Nat.lcm (p - 1) (q - 1)) ≡ 1 [MOD p * q * (p * q)] := by
  have hrp : r.Coprime p := Nat.Coprime.coprime_dvd_right ⟨q, rfl⟩ hr
  have hrq : r.Coprime q := Nat.Coprime.coprime_dvd_right ⟨p, mul_comm p q⟩ hr
  have hmodp : r ^ (p * q * Nat.lcm (p - 1) (q - 1)) ≡ 1 [MOD p * p] :=
    pow_lcm_prime_sq_modEq p q r hp hq hrp (Nat.dvd_lcm_left _ _)
  have hmodq : r ^ (p * q * Nat.lcm (p - 1) (q - 1)) ≡ 1 [MOD q * q] := by
    have := pow_lcm_prime_sq_modEq q p r hq hp hrq (Nat.dvd_lcm_left _ _)
    rwa [(by ring : q * p * Nat.lcm (q - 1) (p - 1)
        = p * q * Nat.lcm (q - 1) (p - 1)), Nat.lcm_comm] at this
  have hco : Nat.Coprime p q := (Nat.coprime_primes hp hq).mpr hpq
  have hco2 : Nat.Coprime (p * p) (q * q) :=
    Nat.Coprime.mul (hco.mul_right hco) (hco.mul_right hco)
  have := (Nat.modEq_and_modEq_iff_modEq_mul hco2).mp ⟨hmodp, hmodq⟩
  rwa [(by ring : p * p * (q * q) = p * q * (p * q))] at this

/-- Master decryption lemma: decrypting any natural number congruent to
`(n+1)^M * r^n` mod `n²` under a valid key pair yields `M % n`. -/
theorem decrypt_of_modEq (kp : PaillierKeyPair) (p q : ℕ)
    (hp : p.Prime) (hq : q.Prime) (hpq : p ≠ q) (hn : kp.n = p * q)
    (hlam : kp.lambda_val = Nat.lcm (p - 1) (q - 1))
    (hmu : kp.mu * kp.lambda_val % kp.n = 1)
    (M r : ℕ) (hr : r.Coprime kp.n)
    (c : ℕ) (hc : c ≡ (kp.n + 1) ^ M * r ^ kp.n [MOD kp.n * kp.n]) :
    decrypt (c : ℤ) kp = ((M % kp.n : ℕ) : ℤ) := by
  have hn2 : 2 ≤ kp.n := by
    rw [hn]
    calc 2 = 2 * 1 := by norm_num
      _ ≤ p * q := Nat.mul_le_mul hp.two_le (Nat.one_le_iff_ne_zero.mpr hq.pos.ne')
  have hnpos : 0 < kp.n := by omega
  -- the exponentiated ciphertext mod n²
  have hpow : c ^ kp.lambda_val
      ≡ 1 + M * kp.lambda_val % kp.n * kp.n [MOD kp.n * kp.n] := by
    have h1 : c ^ kp.lambda_val
        ≡ ((kp.n + 1) ^ M * r ^ kp.n) ^ kp.lambda_val [MOD kp.n * kp.n] :=
      hc.pow _
    have h2 : ((kp.n + 1) ^ M * r ^ kp.n) ^ kp.lambda_val
        = (kp.n + 1) ^ (M * kp.lambda_val) * r ^ (kp.n * kp.lambda_val) := by
      rw [mul_pow, ← pow_mul, ← pow_mul]
    have h3 : (kp.n + 1) ^ (M * kp.lambda_val)
        ≡ 1 + M * kp.lambda_val * kp.n [MOD kp.n * kp.n] :=
      one_add_n_pow_modEq kp.n (M * kp.lambda_val)
    have h4 : r ^ (kp.n * kp.lambda_val) ≡ 1 [MOD kp.n * kp.n] := by
      have := pow_n_lambda_modEq p q r hp hq hpq (by rwa [hn] at hr)
      rw [hn, hlam]
      exact this
    have h5 : M * kp.lambda_val * kp.n
        ≡ M * kp.lambda_val % kp.n * kp.n [MOD kp.n * kp.n] := by
      conv_lhs => rw [← Nat.div_add_mod (M * kp.lambda_val) kp.n]
      calc (kp.n * (M * kp.lambda_val / kp.n) + M * kp.lambda_val % kp.n) * kp.n
          = M * kp.lambda_val % kp.n * kp.n
            + M * kp.lambda_val / kp.n * (kp.n * kp.n) := by ring
        _ ≡ M * kp.lambda_val % kp.n * kp.n + 0 [MOD kp.n * kp.n] :=
            Nat.ModEq.add_left _
              (Nat.modEq_zero_iff_dvd.mpr ⟨M * kp.lambda_val / kp.n,
                (mul_comm _ _)⟩)
        _ = M * kp.lambda_val % kp.n * kp.n := by ring
    calc c ^ kp.lambda_val
        ≡ (kp.n + 1) ^ (M * kp.lambda_val) * r ^ (kp.n * kp.lambda_val)
            [MOD kp.n * kp.n] := by rw [← h2]; exact h1
      _ ≡ (1 + M * kp.lambda_val * kp.n) * 1 [MOD kp.n * kp.n] := h3.mul h4
      _ = 1 + M * kp.lambda_val * kp.n := by ring
      _ ≡ 1 + M * kp.lambda_val % kp.n * kp.n [MOD kp.n * kp.n] :=
          Nat.ModEq.add_left 1 h5
  have hmlt : M * kp.lambda_val % kp.n < kp.n := Nat.mod_lt _ hnpos
  have hElt : 1 + M * kp.lambda_val % kp.n * kp.n < kp.n * kp.n := by nlinarith
  have hxE : c ^ kp.lambda_val % (kp.n * kp.n)
      = 1 + M * kp.lambda_val % kp.n * kp.n := by
    have := hpow
    unfold Nat.ModEq at this
    rw [this, Nat.mod_eq_of_lt hElt]
  -- now compute the integer-level decryption
  show ((c : ℤ) ^ kp.lambda_val % ((kp.n : ℤ) * kp.n) - 1) / kp.n * kp.mu % kp.n = _
  have hcast : (c : ℤ) ^ kp.lambda_val % ((kp.n : ℤ) * kp.n)
      = ((1 + M * kp.lambda_val % kp.n * kp.n : ℕ) : ℤ) := by
    rw [← hxE]
    push_cast
    ring
  rw [hcast]
  have hsub : ((1 + M * kp.lambda_val % kp.n * kp.n : ℕ) : ℤ) - 1
      = ((M * kp.lambda_val % kp.n : ℕ) : ℤ) * (kp.n : ℤ) := by
    push_cast
    ring
  rw [hsub, Int.mul_ediv_cancel _ (by exact_mod_cast hnpos.ne')]
  have : ((M * kp.lambda_val % kp.n : ℕ) : ℤ) * (kp.mu : ℤ) % (kp.n : ℤ)
      = ((M * kp.lambda_val % kp.n * kp.mu % kp.n : ℕ) : ℤ) := by
    push_cast
    ring
  rw [this]
  congr 1
  -- remaining goal in ℕ: (M * lambda % n * mu) % n = M % n
  have hmod1 : M * kp.lambda_val % kp.n * kp.mu % kp.n
      = M * kp.lambda_val * kp.mu % kp.n := Nat.mod_mul_mod ..
  have hml : kp.mu * kp.lambda_val ≡ 1 [MOD kp.n] := by
    unfold Nat.ModEq
    rw [hmu, Nat.mod_eq_of_lt (by omega)]
  have hfin : M * kp.lambda_val * kp.mu ≡ M [MOD kp.n] := by
    calc M * kp.lambda_val * kp.mu = M * (kp.mu * kp.lambda_val) := by ring
      _ ≡ M * 1 [MOD kp.n] := hml.mul_left M
      _ = M := mul_one M
  rw [hmod1]
  exact hfin

/-! ## Encryption helpers -/

theorem encrypt_eq (m : ℤ) (n g r : ℕ) (hm0 : 0 ≤ m) (hmn : m < n) :
    encrypt m (n, g) r
      = some ((g ^ m.toNat % (n * n) * (r ^ n % (n * n)) % (n * n) : ℕ) : ℤ) := by
  show (if m < 0 ∨ (n : ℤ) ≤ m then none
    else some ((g ^ m.toNat % (n * n) * (r ^ n % (n * n)) % (n * n) : ℕ) : ℤ)) = _
  rw [if_neg]
  push_neg
  exact ⟨hm0, hmn⟩

theorem encrypt_num_modEq (a n g r : ℕ) :
    g ^ a % (n * n) * (r ^ n % (n * n)) % (n * n)
      ≡ g ^ a * r ^ n [MOD n * n] :=
  (Nat.mod_modEq _ _).trans
    ((Nat.mod_modEq (g ^ a) (n * n)).mul (Nat.mod_modEq (r ^ n) (n * n)))

/-! ## Claim C1 -/

/-- Claim C1: for every valid key pair, every message `m ∈ [0, n)` and
every admissible nonce `r ∈ [1, n-1]` with `gcd(r, n) = 1`, decrypting the
ciphertext produced by `encrypt` returns exactly `m`. -/
theorem paillier_roundtrip (kp : PaillierKeyPair) (hkp : kp.Valid)
    (m : ℤ) (hm0 : 0 ≤ m) (hmn : m < kp.n)
    (r : ℕ) (hr1 : 1 ≤ r) (hrn : r ≤ kp.n - 1)
    (hrcop : Nat.gcd r kp.n = 1) :
    Option.map (fun c => decrypt c kp) (encrypt m (kp.n, kp.g) r) = some m := by
  obtain ⟨p, q, hp, hq, hpq, hn, hg, hlam, hmult, hmu⟩ := hkp
  rw [encrypt_eq m kp.n kp.g r hm0 hmn, Option.map_some']
  have hcong : kp.g ^ m.toNat % (kp.n * kp.n) * (r ^ kp.n % (kp.n * kp.n)) % (kp.n * kp.n)
      ≡ (kp.n + 1) ^ m.toNat * r ^ kp.n [MOD kp.n * kp.n] := by
    have h0 := encrypt_num_modEq m.toNat kp.n kp.g r
    rw [hg] at h0
    rw [hg]
    exact h0
  rw [decrypt_of_modEq kp p q hp hq hpq hn hlam hmu m.toNat r hrcop _ hcong]
  have hlt : m.toNat < kp.n := by omega
  rw [Nat.mod_eq_of_lt hlt]
  congr 1
  exact Int.toNat_of_nonneg hm0

/-- Claim C1 witness: the valid key pair `n = 15 = 3·5`, `g = 16`,
`lambda = 4`, `mu = 4`, the message `7` and the nonce `2`. -/
theorem paillier_roundtrip_witness :
    (⟨15, 16, 4, 4⟩ : PaillierKeyPair).Valid ∧
    Option.map (fun c => decrypt c ⟨15, 16, 4, 4⟩) (encrypt 7 (15, 16) 2)
      = some 7 := by
  have hv : (⟨15, 16, 4, 4⟩ : PaillierKeyPair).Valid :=
    ⟨3, 5, by norm_num, by norm_num, by norm_num, rfl, rfl, by norm_num,
      by norm_num, rfl⟩
  exact ⟨hv, paillier_roundtrip _ hv 7 (by norm_num) (by norm_num) 2
    (by norm_num) (by norm_num) (by norm_num)⟩

/-! ## Claim C2 -/

/-- Claim C2: homomorphic addition.  For every valid key pair, plaintexts
`m1, m2 ∈ [0, n)` and admissible nonces, decrypting the
`add_ciphertexts` combination of the two ciphertexts yields
`(m1 + m2) mod n`. -/
theorem paillier_homomorphic_add (kp : PaillierKeyPair) (hkp : kp.Valid)
    (m1 m2 : ℤ) (hm10 : 0 ≤ m1) (hm1n : m1 < kp.n)
    (hm20 : 0 ≤ m2) (hm2n : m2 < kp.n)
    (r1 r2 : ℕ) (hr11 : 1 ≤ r1) (hr1n : r1 ≤ kp.n - 1)
    (hr1c : Nat.gcd r1 kp.n = 1)
    (hr21 : 1 ≤ r2) (hr2n : r2 ≤ kp.n - 1) (hr2c : Nat.gcd r2 kp.n = 1)
    (c1 c2 : ℤ)
    (h1 : encrypt m1 (kp.n, kp.g) r1 = some c1)
    (h2 : encrypt m2 (kp.n, kp.g) r2 = some c2) :
    decrypt (add_ciphertexts c1 c2 (kp.n, kp.g)) kp
      = (m1 + m2) % (kp.n : ℤ) := by
  obtain ⟨p, q, hp, hq, hpq, hn, hg, hlam, hmult, hmu⟩ := hkp
  rw [encrypt_eq m1 kp.n kp.g r1 hm10 hm1n] at h1
  rw [encrypt_eq m2 kp.n kp.g r2 hm20 hm2n] at h2
  have hc1 := (Option.some.inj h1).symm
  have hc2 := (Option.some.inj h2).symm
  subst hc1
  subst hc2
  have hadd : add_ciphertexts
      ((kp.g ^ m1.toNat % (kp.n * kp.n) * (r1 ^ kp.n % (kp.n * kp.n)) % (kp.n * kp.n) : ℕ) : ℤ)
      ((kp.g ^ m2.toNat % (kp.n * kp.n) * (r2 ^ kp.n % (kp.n * kp.n)) % (kp.n * kp.n) : ℕ) : ℤ)
      (kp.n, kp.g)
      = (((kp.g ^ m1.toNat % (kp.n * kp.n) * (r1 ^ kp.n % (kp.n * kp.n)) % (kp.n * kp.n))
          * (kp.g ^ m2.toNat % (kp.n * kp.n) * (r2 ^ kp.n % (kp.n * kp.n)) % (kp.n * kp.n))
          % (kp.n * kp.n) : ℕ) : ℤ) := by
    show ((_ : ℤ) * _ % ((kp.n : ℤ) * kp.n)) = _
    push_cast
    ring_nf
  rw [hadd]
  have hcong :
      (kp.g ^ m1.toNat % (kp.n * kp.n) * (r1 ^ kp.n % (kp.n * kp.n)) % (kp.n * kp.n))
        * (kp.g ^ m2.toNat % (kp.n * kp.n) * (r2 ^ kp.n % (kp.n * kp.n)) % (kp.n * kp.n))
        % (kp.n * kp.n)
      ≡ (kp.n + 1) ^ (m1.toNat + m2.toNat) * (r1 * r2) ^ kp.n
          [MOD kp.n * kp.n] := by
    have ha := encrypt_num_modEq m1.toNat kp.n kp.g r1
    have hb := encrypt_num_modEq m2.toNat kp.n kp.g r2
    have hmm0 := (Nat.mod_modEq _ (kp.n * kp.n)).trans (ha.mul hb)
    rw [hg] at hmm0
    rw [hg]
    have heq : (kp.n + 1) ^ m1.toNat * r1 ^ kp.n
          * ((kp.n + 1) ^ m2.toNat * r2 ^ kp.n)
        = (kp.n + 1) ^ (m1.toNat + m2.toNat) * (r1 * r2) ^ kp.n := by
      rw [pow_add, mul_pow]
      ring
    rw [← heq]
    exact hmm0
  rw [decrypt_of_modEq kp p q hp hq hpq hn hlam hmu (m1.toNat + m2.toNat)
    (r1 * r2) (Nat.Coprime.mul hr1c hr2c) _ hcong]
  have h1' : ((m1.toNat : ℤ)) = m1 := Int.toNat_of_nonneg hm10
  have h2' : ((m2.toNat : ℤ)) = m2 := Int.toNat_of_nonneg hm20
  push_cast
  rw [h1', h2']

/-- Claim C2 witness: key pair `n = 15`, messages `7` and `3`, nonces `2`
and `4`; the two concrete ciphertexts are `83` and `154`. -/
theorem paillier_homomorphic_add_witness :
    (⟨15, 16, 4, 4⟩ : PaillierKeyPair).Valid ∧
    decrypt (add_ciphertexts 83 154 (15, 16)) ⟨15, 16, 4, 4⟩
      = (7 + 3) % ((15 : ℕ) : ℤ) := by
  have hv : (⟨15, 16, 4, 4⟩ : PaillierKeyPair).Valid :=
    ⟨3, 5, by norm_num, by norm_num, by norm_num, rfl, rfl, by norm_num,
      by norm_num, rfl⟩
  exact ⟨hv, paillier_homomorphic_add _ hv 7 3 (by norm_num) (by norm_num)
    (by norm_num) (by norm_num) 2 4 (by norm_num) (by norm_num) (by norm_num)
    (by norm_num) (by norm_num) (by norm_num) 83 154 (by decide) (by decide)⟩

/-! ## Claim C7 -/

/-- Claim C7: `add_ciphertexts` is commutative and associative as a binary
operation on integers (mod `n²`), and aggregation of a permuted list of
encrypted votes decrypts to the same value. -/
theorem add_ciphertexts_comm_assoc_perm (pub : ℕ × ℕ) (c1 c2 c3 : ℤ)
    (kp : PaillierKeyPair) (l1 l2 : List ℤ) (hperm : l1.Perm l2) :
    add_ciphertexts c1 c2 pub = add_ciphertexts c2 c1 pub ∧
    add_ciphertexts (add_ciphertexts c1 c2 pub) c3 pub
      = add_ciphertexts c1 (add_ciphertexts c2 c3 pub) pub ∧
    decrypt (aggregate_votes l1 (kp.n, kp.g)) kp
      = decrypt (aggregate_votes l2 (kp.n, kp.g)) kp := by
  refine ⟨?_, ?_, ?_⟩
  · show c1 * c2 % ((pub.1 : ℤ) * pub.1) = c2 * c1 % ((pub.1 : ℤ) * pub.1)
    rw [mul_comm]
  · show c1 * c2 % ((pub.1 : ℤ) * pub.1) * c3 % ((pub.1 : ℤ) * pub.1)
      = c1 * (c2 * c3 % ((pub.1 : ℤ) * pub.1)) % ((pub.1 : ℤ) * pub.1)
    rw [emod_mul_left_emod, emod_mul_right_emod, mul_assoc]
  · rw [aggregate_votes_perm l1 l2 _ hperm]

/-- Claim C7 witness: concrete ciphertexts `2, 3, 4` under the key pair
`n = 15`, and the permuted vote lists `[2, 3]` and `[3, 2]`. -/
theorem add_ciphertexts_comm_assoc_perm_witness :
    ([2, 3] : List ℤ).Perm [3, 2] ∧
    (add_ciphertexts 2 3 (15, 16) = add_ciphertexts 3 2 (15, 16) ∧
     add_ciphertexts (add_ciphertexts 2 3 (15, 16)) 4 (15, 16)
       = add_ciphertexts 2 (add_ciphertexts 3 4 (15, 16)) (15, 16) ∧
     decrypt (aggregate_votes [2, 3] (15, 16)) ⟨15, 16, 4, 4⟩
       = decrypt (aggregate_votes [3, 2] (15, 16)) ⟨15, 16, 4, 4⟩) :=
  ⟨List.Perm.swap 3 2 [],
   add_ciphertexts_comm_assoc_perm (15, 16) 2 3 4 ⟨15, 16, 4, 4⟩ [2, 3] [3, 2]
     (List.Perm.swap 3 2 [])⟩

/-! ## Claim C9 -/

/-- Claim C9: `verify_vote_encryption` rejects every integer outside
`[1, n²)`, and accepts every ciphertext freshly produced by `encrypt`
under a valid key pair (such a ciphertext lies in `[1, n²)` and is coprime
to `n`). -/
theorem verify_vote_encryption_spec (kp : PaillierKeyPair) (hkp : kp.Valid)
    (m : ℤ) (hm0 : 0 ≤ m) (hmn : m < kp.n)
    (r : ℕ) (hr1 : 1 ≤ r) (hrn : r ≤ kp.n - 1)
    (hrcop : Nat.gcd r kp.n = 1) :
    (∀ c : ℤ, c ≤ 0 ∨ ((kp.n : ℤ) * kp.n) ≤ c →
      verify_vote_encryption c (kp.n, kp.g) = false) ∧
    (∀ c : ℤ, encrypt m (kp.n, kp.g) r = some c →
      verify_vote_encryption c (kp.n, kp.g) = true) := by
  obtain ⟨p, q, hp, hq, hpq, hn, hg, hlam, hmult, hmu⟩ := hkp
  have hn2 : 2 ≤ kp.n := by
    rw [hn]
    calc 2 = 2 * 1 := by norm_num
      _ ≤ p * q := Nat.mul_le_mul hp.two_le (Nat.one_le_iff_ne_zero.mpr hq.pos.ne')
  constructor
  · intro c hc
    show (if c ≤ 0 ∨ ((kp.n : ℤ) * kp.n) ≤ c then false
      else if Int.gcd c kp.n ≠ 1 then false else true) = false
    rw [if_pos hc]
  · intro c hc
    rw [encrypt_eq m kp.n kp.g r hm0 hmn] at hc
    have hceq := (Option.some.inj hc).symm
    subst hceq
    set N : ℕ :=
      kp.g ^ m.toNat % (kp.n * kp.n) * (r ^ kp.n % (kp.n * kp.n)) % (kp.n * kp.n)
      with hNdef
    have hXco : Nat.Coprime ((kp.n + 1) ^ m.toNat * r ^ kp.n) kp.n := by
      have h1 : Nat.Coprime (kp.n + 1) kp.n := by
        rw [Nat.coprime_self_add_left]
        exact Nat.coprime_one_left _
      exact (h1.pow_left _).mul (Nat.Coprime.pow_left _ hrcop)
    have hNco : Nat.Coprime N kp.n := by
      have hmodeq : N ≡ (kp.n + 1) ^ m.toNat * r ^ kp.n [MOD kp.n] := by
        have h0 := encrypt_num_modEq m.toNat kp.n kp.g r
        rw [hg] at h0
        rw [hNdef, hg]
        exact h0.of_dvd ⟨kp.n, rfl⟩
      show Nat.gcd N kp.n = 1
      rw [Nat.gcd_comm, Nat.gcd_rec, hmodeq, ← Nat.gcd_rec, Nat.gcd_comm]
      exact hXco
    have hN1 : 1 ≤ N := by
      rcases Nat.eq_zero_or_pos N with h0 | h1
      · exfalso
        rw [h0] at hNco
        have : kp.n = 1 := by simpa [Nat.Coprime] using hNco
        omega
      · exact h1
    have hNlt : N < kp.n * kp.n := by
      rw [hNdef]
      exact Nat.mod_lt _ (by positivity)
    show (if (N : ℤ) ≤ 0 ∨ ((kp.n : ℤ) * kp.n) ≤ (N : ℤ) then false
      else if Int.gcd (N : ℤ) kp.n ≠ 1 then false else true) = true
    rw [if_neg, if_neg]
    · rw [Int.gcd_natCast_natCast]
      simpa using hNco
    · push_neg
      constructor
      · exact_mod_cast hN1
      · exact_mod_cast hNlt

/-- Claim C9 witness: under the key pair `n = 15`, the out-of-range integer
`300 ≥ n² = 225` is rejected, and the fresh ciphertext `83` of message `7`
with nonce `2` is accepted. -/
theorem verify_vote_encryption_spec_witness :
    (⟨15, 16, 4, 4⟩ : PaillierKeyPair).Valid ∧
    verify_vote_encryption 300 (15, 16) = false ∧
    verify_vote_encryption 83 (15, 16) = true := by
  have hv : (⟨15, 16, 4, 4⟩ : PaillierKeyPair).Valid :=
    ⟨3, 5, by norm_num, by norm_num, by norm_num, rfl, rfl, by norm_num,
      by norm_num, rfl⟩
  have hspec := verify_vote_encryption_spec _ hv 7 (by norm_num) (by norm_num)
    2 (by norm_num) (by norm_num) (by norm_num)
  exact ⟨hv, hspec.1 300 (by norm_num), hspec.2 83 (by decide)⟩

/-- Claim C5 witness: the amended relation between the two combiners at the
concrete key pair `n = 15, mu = 4` and the single partial decryption
`[31]`. -/
theorem combine_decryptions_spec_witness :
    2 ≤ (PaillierKeyPair.mk 15 16 4 4).n ∧
    (ThresholdPaillier.combine_decryptions [31] ⟨15, 16, 4, 4⟩
        = (([31] : List ℤ).prod % (((15 : ℕ) : ℤ) * ((15 : ℕ) : ℤ)) - 1)
            / ((15 : ℕ) : ℤ) * ((4 : ℕ) : ℤ) % ((15 : ℕ) : ℤ) ∧
     ThresholdDecryption.combine_decryptions [31] (15, 16)
        = (([31] : List ℤ).prod % (((15 : ℕ) : ℤ) * ((15 : ℕ) : ℤ)) - 1)
            / ((15 : ℕ) : ℤ) ∧
     ThresholdPaillier.combine_decryptions [31] ⟨15, 16, 4, 4⟩
        = ThresholdDecryption.combine_decryptions [31] (15, 16)
            * ((4 : ℕ) : ℤ) % ((15 : ℕ) : ℤ)) :=
  ⟨by norm_num, combine_decryptions_spec [31] ⟨15, 16, 4, 4⟩ (by norm_num)⟩

/-! ## Shamir secret sharing: definitions -/

/-- Embeds `ShamirSecretSharing._evaluate_polynomial`: Horner evaluation
of the coefficient list `[a0, a1, ...]` at `x`, reducing mod `prime` at
every step (the loop runs over `reversed(coefficients)`). -/
def evaluate_polynomial (prime : ℤ) (coefficients : List ℤ) (x : ℤ) : ℤ :=
  coefficients.reverse.foldl
    (fun result coefficient => (result * x + coefficient) % prime) 0

/-- Embeds `ShamirSecretSharing.generate_shares`.  The `threshold - 1`
random coefficients drawn by `random.randint(1, prime - 1)` are the
explicit argument `rand`, so `coefficients = secret :: rand`; theorems
about a sharing with threshold `t` assume `rand.length = t - 1`.  The
`ValueError` for `secret ≥ prime` is `none`.  Shares are the polynomial
values at `x = 1 .. total_shares`. -/
def generate_shares (total_shares : ℕ) (prime : ℤ) (secret : ℤ)
    (rand : List ℤ) : Option (List (ℤ × ℤ)) :=
  if prime ≤ secret then none
  else
    let coefficients := secret :: rand
    some ((List.range total_shares).map
      (fun i => (((i + 1 : ℕ) : ℤ),
        evaluate_polynomial prime coefficients ((i + 1 : ℕ) : ℤ))))

/-- Fuel-based form of the recursive `extended_gcd` inside
`ShamirSecretSharing._mod_inverse`: the source recursion
`extended_gcd(a, b) = extended_gcd(b % a, a)` is well-founded in `a`, and
since `b % (a+1) ≤ a`, fuel `a` always suffices for the argument `a`; the
fuel-exhausted branch is unreachable whenever `fuel ≥ a`. -/
def egcd_go : ℕ → ℕ → ℕ → ℕ × ℤ × ℤ
  | _, 0, b => (b, 0, 1)
  | 0, _ + 1, b => (b, 0, 1)
  | fuel + 1, a + 1, b =>
    let r := egcd_go fuel (b % (a + 1)) (a + 1)
    (r.1, r.2.2 - ((b / (a + 1) : ℕ) : ℤ) * r.2.1, r.2.1)

/-- The source's `extended_gcd(a, b) -> (gcd, x, y)` with
`x * a + y * b = gcd`, for the non-negative arguments it is actually
called with. -/
def extended_gcd (a b : ℕ) : ℕ × ℤ × ℤ := egcd_go a a b

/-- Embeds `ShamirSecretSharing._mod_inverse`: extended Euclid against
`prime`, `ValueError` (= `none`) when the gcd is not `1`, otherwise
`(x % prime + prime) % prime`.  Both arguments are non-negative at every
call site (`a` is a value of `%` by `prime`), matching the `ℕ`-valued
`extended_gcd`. -/
def mod_inverse (prime : ℤ) (a : ℤ) : Option ℤ :=
  let r := extended_gcd a.toNat prime.toNat
  if r.1 ≠ 1 then none
  else some ((r.2.1 % prime + prime) % prime)

/-- The inner loop of `ShamirSecretSharing.reconstruct_secret`: numerator
and denominator accumulators folded over `enumerate(shares)`, skipping the
entry with index `i`. -/
def lagrange_num_den (prime : ℤ) (shares : List (ℤ × ℤ)) (i : ℕ)
    (x_i : ℤ) : ℤ × ℤ :=
  shares.enum.foldl
    (fun nd jp =>
      if i ≠ jp.1 then
        (nd.1 * -jp.2.1 % prime, nd.2 * (x_i - jp.2.1) % prime)
      else nd)
    (1, 1)

/-- The outer loop of `reconstruct_secret` over `enumerate(shares)`,
accumulating `secret`; `none` when `_mod_inverse` raises. -/
def recon_aux (prime : ℤ) (shares : List (ℤ × ℤ)) :
    List (ℕ × ℤ × ℤ) → ℤ → Option ℤ
  | [], secret => some secret
  | (i, x_i, y_i) :: rest, secret =>
    let nd := lagrange_num_den prime shares i x_i
    match mod_inverse prime nd.2 with
    | none => none
    | some inv =>
      let lagrange_coeff := nd.1 * inv % prime
      recon_aux prime shares rest ((secret + y_i * lagrange_coeff) % prime)

/-- Embeds `ShamirSecretSharing.reconstruct_secret`: `ValueError`
(= `none`) on fewer than `threshold` shares, keep only the first
`threshold` shares, then Lagrange interpolation at `x = 0`. -/
def reconstruct_secret (threshold : ℕ) (prime : ℤ)
    (shares : List (ℤ × ℤ)) : Option ℤ :=
  if shares.length < threshold then none
  else
    let s := shares.take threshold
    recon_aux prime s s.enum 0

/-- Embeds `ShamirSecretSharing.verify_share`: trivially `true` on fewer
than `threshold - 1` other shares; otherwise reconstructs from
`other_shares` (any exception in the `try` gives `false` — including the
`ValueError` that `reconstruct_secret` raises when `other_shares` has
fewer than `threshold` entries) and compares the candidate value with the
one-coefficient polynomial `[reconstructed]` evaluated at the candidate's
`x`. -/
def verify_share (threshold : ℕ) (prime : ℤ) (share : ℤ × ℤ)
    (other_shares : List (ℤ × ℤ)) : Bool :=
  if other_shares.length < threshold - 1 then true
  else
    match reconstruct_secret threshold prime other_shares with
    | none => false
    | some reconstructed =>
      evaluate_polynomial prime [reconstructed] share.1 == share.2

/-! ## Claim C4 (code bug evidence) -/

/-- Claim C4 evidence: with `prime = 5`, `threshold = 2`,
`total_shares = 2`, the coefficient range `[1, prime-1]` sampled by
`random.randint(1, self.prime - 1)` excludes `0`, so the share at `x = 1`
takes the value `1` for the secret `0` (coefficient `1`) but never for the
secret `1`: the distribution of the single share at `x = 1` differs
between the two secrets, contradicting exact information-theoretic
hiding of any set of fewer-than-threshold shares. -/
theorem shamir_share_distribution_bias :
    (∃ a ∈ Finset.Icc (1 : ℤ) 4,
      Option.map (fun l => l.getD 0 (0, 0)) (generate_shares 2 5 0 [a])
        = some (1, 1)) ∧
    (∀ a ∈ Finset.Icc (1 : ℤ) 4,
      Option.map (fun l => l.getD 0 (0, 0)) (generate_shares 2 5 1 [a])
        ≠ some (1, 1)) := by decide

/-! ## Bridging the modular computations into `ZMod P` -/

theorem intCast_emod_eq (P : ℕ) (a : ℤ) :
    ((a % (P : ℤ) : ℤ) : ZMod P) = (a : ZMod P) := by
  rw [Int.emod_def]
  push_cast
  simp

theorem egcd_go_spec (fuel : ℕ) : ∀ a b : ℕ, a ≤ fuel →
    (egcd_go fuel a b).1 = Nat.gcd a b ∧
    (egcd_go fuel a b).2.1 * a + (egcd_go fuel a b).2.2 * b
      = (Nat.gcd a b : ℤ) := by
  induction fuel with
  | zero =>
    intro a b ha
    interval_cases a
    simp [egcd_go]
  | succ fuel ih =>
    intro a b ha
    cases a with
    | zero => simp [egcd_go]
    | succ a' =>
      have hle : b % (a' + 1) ≤ fuel := by
        have := Nat.mod_lt b (show 0 < a' + 1 by omega)
        omega
      obtain ⟨h1, h2⟩ := ih (b % (a' + 1)) (a' + 1) hle
      have hbd : ((b % (a' + 1) : ℕ) : ℤ)
          = (b : ℤ) - ((a' + 1 : ℕ) : ℤ) * ((b / (a' + 1) : ℕ) : ℤ) := by
        have h3 := congrArg (Nat.cast : ℕ → ℤ) (Nat.mod_add_div b (a' + 1))
        push_cast at h3 ⊢
        linarith
      constructor
      · show (egcd_go fuel (b % (a' + 1)) (a' + 1)).1 = Nat.gcd (a' + 1) b
        rw [h1]
        exact (Nat.gcd_rec _ _).symm
      · show ((egcd_go fuel (b % (a' + 1)) (a' + 1)).2.2
            - ((b / (a' + 1) : ℕ) : ℤ) * (egcd_go fuel (b % (a' + 1)) (a' + 1)).2.1)
              * ((a' + 1 : ℕ) : ℤ)
            + (egcd_go fuel (b % (a' + 1)) (a' + 1)).2.1 * b
          = (Nat.gcd (a' + 1) b : ℤ)
        rw [Nat.gcd_rec, ← h2, hbd]
        push_cast
        ring

theorem extended_gcd_spec (a b : ℕ) :
    (extended_gcd a b).1 = Nat.gcd a b ∧
    (extended_gcd a b).2.1 * a + (extended_gcd a b).2.2 * b
      = (Nat.gcd a b : ℤ) :=
  egcd_go_spec a a b le_rfl

/-- When `a ∈ [0, P)` is nonzero mod the prime `P`, `mod_inverse` succeeds
and returns the inverse of `a` in `ZMod P`. -/
theorem mod_inverse_spec (P : ℕ) [hPP : Fact P.Prime] (a : ℤ)
    (ha0 : 0 ≤ a) (haP : a < (P : ℤ)) (hane : (a : ZMod P) ≠ 0) :
    ∃ v : ℤ, mod_inverse (P : ℤ) a = some v ∧
      (v : ZMod P) = ((a : ZMod P))⁻¹ := by
  have hP := hPP.out
  have htn : ((P : ℤ)).toNat = P := Int.toNat_natCast P
  have hcast : ((a.toNat : ℕ) : ℤ) = a := Int.toNat_of_nonneg ha0
  have hnd : ¬ P ∣ a.toNat := by
    intro hdvd
    apply hane
    have : ((a.toNat : ℕ) : ZMod P) = 0 :=
      (ZMod.natCast_zmod_eq_zero_iff_dvd _ _).mpr hdvd
    rw [← hcast]
    exact_mod_cast this
  have hgcd : Nat.gcd a.toNat P = 1 := by
    rw [Nat.gcd_comm]
    exact (Nat.Prime.coprime_iff_not_dvd hP).mpr hnd
  obtain ⟨hg, hbez⟩ := extended_gcd_spec a.toNat ((P : ℤ)).toNat
  rw [htn] at hg hbez
  refine ⟨((extended_gcd a.toNat ((P : ℤ)).toNat).2.1 % (P : ℤ) + (P : ℤ))
      % (P : ℤ), ?_, ?_⟩
  · show (if (extended_gcd a.toNat ((P : ℤ)).toNat).1 ≠ 1 then none
      else some (((extended_gcd a.toNat ((P : ℤ)).toNat).2.1 % (P : ℤ) + (P : ℤ))
        % (P : ℤ))) = _
    rw [if_neg]
    rw [htn, hg, hgcd]
    simp
  · rw [hgcd] at hbez
    have hzm : ((extended_gcd a.toNat P).2.1 : ZMod P) * (a : ZMod P) = 1 := by
      have h5 := congrArg (fun z : ℤ => (z : ZMod P)) hbez
      push_cast at h5
      have h6 : ((a.toNat : ℕ) : ZMod P) = (a : ZMod P) := by
        have h7 := congrArg (fun z : ℤ => (z : ZMod P)) hcast
        push_cast at h7
        exact h7
      rw [h6] at h5
      simpa using h5
    rw [htn]
    rw [intCast_emod_eq]
    push_cast
    rw [ZMod.natCast_self]
    rw [add_zero]
    exact eq_inv_of_mul_eq_one_left hzm

/-- The denominator accumulator of the inner reconstruction loop stays in
`[0, P)` once it starts there. -/
theorem lagrange_fold_den_bounds (P : ℤ) (hP : 0 < P) (i : ℕ) (x_i : ℤ) :
    ∀ (l : List (ℕ × ℤ × ℤ)) (nd : ℤ × ℤ), 0 ≤ nd.2 → nd.2 < P →
    0 ≤ (l.foldl (fun nd jp =>
        if i ≠ jp.1 then
          (nd.1 * -jp.2.1 % P, nd.2 * (x_i - jp.2.1) % P)
        else nd) nd).2 ∧
    (l.foldl (fun nd jp =>
        if i ≠ jp.1 then
          (nd.1 * -jp.2.1 % P, nd.2 * (x_i - jp.2.1) % P)
        else nd) nd).2 < P := by
  intro l
  induction l with
  | nil => intro nd h0 h1; exact ⟨h0, h1⟩
  | cons e tl ih =>
    intro nd h0 h1
    rw [List.foldl_cons]
    by_cases hie : i ≠ e.1
    · rw [if_pos hie]
      exact ih _ (Int.emod_nonneg _ hP.ne') (Int.emod_lt_of_pos _ hP)
    · rw [if_neg hie]
      exact ih _ h0 h1

/-- `lagrange_num_den` keeps its denominator in `[0, P)`. -/
theorem lagrange_num_den_bounds (P : ℤ) (hP : 0 < P) (hP1 : 1 < P)
    (sh : List (ℤ × ℤ)) (i : ℕ) (x_i : ℤ) :
    0 ≤ (lagrange_num_den P sh i x_i).2 ∧
    (lagrange_num_den P sh i x_i).2 < P :=
  lagrange_fold_den_bounds P hP i x_i sh.enum (1, 1) (by norm_num) hP1


/-- Casting the numerator/denominator fold of `reconstruct_secret` into
`ZMod P`, for an arbitrary enumeration offset. -/
theorem lagrange_fold_cast (P : ℕ) (i : ℕ) (x_i : ℤ) :
    ∀ (pl : List (ℤ × ℤ)) (off : ℕ) (a b : ℤ),
    ((((List.enumFrom off pl).foldl (fun nd jp =>
        if i ≠ jp.1 then
          (nd.1 * -jp.2.1 % (P : ℤ), nd.2 * (x_i - jp.2.1) % (P : ℤ))
        else nd) (a, b)).1 : ℤ) : ZMod P)
      = (a : ZMod P) * ∏ j ∈ Finset.range pl.length,
          (if i = off + j then 1 else -(((pl.getD j (0, 0)).1 : ℤ) : ZMod P)) ∧
    ((((List.enumFrom off pl).foldl (fun nd jp =>
        if i ≠ jp.1 then
          (nd.1 * -jp.2.1 % (P : ℤ), nd.2 * (x_i - jp.2.1) % (P : ℤ))
        else nd) (a, b)).2 : ℤ) : ZMod P)
      = (b : ZMod P) * ∏ j ∈ Finset.range pl.length,
          (if i = off + j then 1
            else ((x_i : ℤ) : ZMod P) - (((pl.getD j (0, 0)).1 : ℤ) : ZMod P)) := by
  intro pl
  induction pl with
  | nil =>
    intro off a b
    constructor <;> simp
  | cons hd tl ih =>
    intro off a b
    have henum : List.enumFrom off (hd :: tl)
        = (off, hd) :: List.enumFrom (off + 1) tl := rfl
    rw [henum, List.foldl_cons]
    by_cases hio : i = off
    · have hif : (if i ≠ (off, hd).1 then
            ((a, b).1 * -(off, hd).2.1 % (P : ℤ),
              (a, b).2 * (x_i - (off, hd).2.1) % (P : ℤ))
          else (a, b)) = (a, b) := by
        simp [hio]
      rw [hif]
      obtain ⟨ih1, ih2⟩ := ih (off + 1) a b
      have hhead1 : (if i = off + 0 then (1 : ZMod P)
          else -((((hd :: tl).getD 0 (0, 0)).1 : ℤ) : ZMod P)) = 1 := by
        simp [hio]
      have hhead2 : (if i = off + 0 then (1 : ZMod P)
          else ((x_i : ℤ) : ZMod P) - ((((hd :: tl).getD 0 (0, 0)).1 : ℤ) : ZMod P)) = 1 := by
        simp [hio]
      constructor
      · rw [ih1, List.length_cons, Finset.prod_range_succ', hhead1, mul_one]
        congr 1
        apply Finset.prod_congr rfl
        intro j hj
        rw [List.getD_cons_succ]
        exact if_congr (by omega) rfl rfl
      · rw [ih2, List.length_cons, Finset.prod_range_succ', hhead2, mul_one]
        congr 1
        apply Finset.prod_congr rfl
        intro j hj
        rw [List.getD_cons_succ]
        exact if_congr (by omega) rfl rfl
    · have hif : (if i ≠ (off, hd).1 then
            ((a, b).1 * -(off, hd).2.1 % (P : ℤ),
              (a, b).2 * (x_i - (off, hd).2.1) % (P : ℤ))
          else (a, b))
          = (a * -hd.1 % (P : ℤ), b * (x_i - hd.1) % (P : ℤ)) := by
        simp [hio]
      rw [hif]
      obtain ⟨ih1, ih2⟩ :=
        ih (off + 1) (a * -hd.1 % (P : ℤ)) (b * (x_i - hd.1) % (P : ℤ))
      have hhead1 : (if i = off + 0 then (1 : ZMod P)
          else -((((hd :: tl).getD 0 (0, 0)).1 : ℤ) : ZMod P))
          = -((hd.1 : ℤ) : ZMod P) := by
        simp [hio]
      have hhead2 : (if i = off + 0 then (1 : ZMod P)
          else ((x_i : ℤ) : ZMod P) - ((((hd :: tl).getD 0 (0, 0)).1 : ℤ) : ZMod P))
          = ((x_i : ℤ) : ZMod P) - ((hd.1 : ℤ) : ZMod P) := by
        simp [hio]
      constructor
      · rw [ih1, intCast_emod_eq, List.length_cons, Finset.prod_range_succ', hhead1]
        push_cast
        have hprodeq : ∏ j ∈ Finset.range tl.length,
            (if i = off + (j + 1) then (1 : ZMod P)
              else -((((hd :: tl).getD (j + 1) (0, 0)).1 : ℤ) : ZMod P))
            = ∏ j ∈ Finset.range tl.length,
              (if i = off + 1 + j then (1 : ZMod P)
                else -(((tl.getD j (0, 0)).1 : ℤ) : ZMod P)) := by
          apply Finset.prod_congr rfl
          intro j hj
          rw [List.getD_cons_succ]
          exact if_congr (by omega) rfl rfl
        rw [hprodeq]
        ring
      · rw [ih2, intCast_emod_eq, List.length_cons, Finset.prod_range_succ', hhead2]
        push_cast
        have hprodeq : ∏ j ∈ Finset.range tl.length,
            (if i = off + (j + 1) then (1 : ZMod P)
              else ((x_i : ℤ) : ZMod P) - ((((hd :: tl).getD (j + 1) (0, 0)).1 : ℤ) : ZMod P))
            = ∏ j ∈ Finset.range tl.length,
              (if i = off + 1 + j then (1 : ZMod P)
                else ((x_i : ℤ) : ZMod P) - (((tl.getD j (0, 0)).1 : ℤ) : ZMod P)) := by
          apply Finset.prod_congr rfl
          intro j hj
          rw [List.getD_cons_succ]
          exact if_congr (by omega) rfl rfl
        rw [hprodeq]
        ring

/-- `lagrange_num_den` in `ZMod P`: numerator and denominator are the
products over all other enumeration indices. -/
theorem lagrange_num_den_cast (P : ℕ) (sh : List (ℤ × ℤ)) (i : ℕ) (x_i : ℤ) :
    (((lagrange_num_den (P : ℤ) sh i x_i).1 : ℤ) : ZMod P)
      = ∏ j ∈ Finset.range sh.length,
          (if i = j then 1 else -(((sh.getD j (0, 0)).1 : ℤ) : ZMod P)) ∧
    (((lagrange_num_den (P : ℤ) sh i x_i).2 : ℤ) : ZMod P)
      = ∏ j ∈ Finset.range sh.length,
          (if i = j then 1
            else ((x_i : ℤ) : ZMod P) - (((sh.getD j (0, 0)).1 : ℤ) : ZMod P)) := by
  have h := lagrange_fold_cast P i x_i sh 0 1 1
  have henum : sh.enum = List.enumFrom 0 sh := rfl
  constructor
  · have h1 := h.1
    rw [show lagrange_num_den (P : ℤ) sh i x_i
        = (List.enumFrom 0 sh).foldl (fun nd jp =>
            if i ≠ jp.1 then
              (nd.1 * -jp.2.1 % (P : ℤ), nd.2 * (x_i - jp.2.1) % (P : ℤ))
            else nd) (1, 1) from rfl]
    rw [h1]
    push_cast
    rw [one_mul]
    apply Finset.prod_congr rfl
    intro j hj
    exact if_congr (by omega) rfl rfl
  · have h2 := h.2
    rw [show lagrange_num_den (P : ℤ) sh i x_i
        = (List.enumFrom 0 sh).foldl (fun nd jp =>
            if i ≠ jp.1 then
              (nd.1 * -jp.2.1 % (P : ℤ), nd.2 * (x_i - jp.2.1) % (P : ℤ))
            else nd) (1, 1) from rfl]
    rw [h2]
    push_cast
    rw [one_mul]
    apply Finset.prod_congr rfl
    intro j hj
    exact if_congr (by omega) rfl rfl

/-- The outer reconstruction loop in `ZMod P`: when every Lagrange
denominator along the way is invertible, `recon_aux` succeeds, stays in
`[0, P)`, and computes the Lagrange sum. -/
theorem recon_aux_enumFrom_cast (P : ℕ) [hPP : Fact P.Prime]
    (sh : List (ℤ × ℤ)) :
    ∀ (pl : List (ℤ × ℤ)) (off : ℕ) (acc : ℤ), 0 ≤ acc → acc < (P : ℤ) →
    (∀ j, j < pl.length →
      ((((lagrange_num_den (P : ℤ) sh (off + j) (pl.getD j (0, 0)).1).2 : ℤ)) : ZMod P) ≠ 0) →
    ∃ out : ℤ, recon_aux (P : ℤ) sh (List.enumFrom off pl) acc = some out ∧
      0 ≤ out ∧ out < (P : ℤ) ∧
      (out : ZMod P) = (acc : ZMod P)
        + ∑ j ∈ Finset.range pl.length,
            (((pl.getD j (0, 0)).2 : ZMod P)
              * (((lagrange_num_den (P : ℤ) sh (off + j) (pl.getD j (0, 0)).1).1 : ℤ) : ZMod P)
              * ((((lagrange_num_den (P : ℤ) sh (off + j) (pl.getD j (0, 0)).1).2 : ℤ) : ZMod P))⁻¹) := by
  intro pl
  induction pl with
  | nil =>
    intro off acc h0 h1 hden
    exact ⟨acc, rfl, h0, h1, by simp⟩
  | cons hd tl ih =>
    intro off acc h0 h1 hden
    obtain ⟨x, y⟩ := hd
    have hP2 : 2 ≤ P := hPP.out.two_le
    have hPpos : (0 : ℤ) < P := by exact_mod_cast (show 0 < P by omega)
    have hP1 : (1 : ℤ) < P := by exact_mod_cast (show 1 < P by omega)
    have hdb := lagrange_num_den_bounds (P : ℤ) hPpos hP1 sh off x
    have hd0 : (((lagrange_num_den (P : ℤ) sh off x).2 : ℤ) : ZMod P) ≠ 0 := by
      have h00 := hden 0 (by simp)
      simpa using h00
    obtain ⟨inv, hinv_eq, hinv_val⟩ :=
      mod_inverse_spec P (lagrange_num_den (P : ℤ) sh off x).2 hdb.1 hdb.2 hd0
    have henum : List.enumFrom off ((x, y) :: tl)
        = (off, x, y) :: List.enumFrom (off + 1) tl := rfl
    have hstep : recon_aux (P : ℤ) sh (List.enumFrom off ((x, y) :: tl)) acc
        = recon_aux (P : ℤ) sh (List.enumFrom (off + 1) tl)
            ((acc + y * ((lagrange_num_den (P : ℤ) sh off x).1 * inv % (P : ℤ)))
              % (P : ℤ)) := by
      rw [henum]
      simp only [recon_aux]
      rw [hinv_eq]
    have h0' : 0 ≤ (acc + y * ((lagrange_num_den (P : ℤ) sh off x).1 * inv % (P : ℤ)))
        % (P : ℤ) := Int.emod_nonneg _ hPpos.ne'
    have h1' : (acc + y * ((lagrange_num_den (P : ℤ) sh off x).1 * inv % (P : ℤ)))
        % (P : ℤ) < (P : ℤ) := Int.emod_lt_of_pos _ hPpos
    obtain ⟨out, hout_eq, hob0, hob1, hout_val⟩ :=
      ih (off + 1)
        ((acc + y * ((lagrange_num_den (P : ℤ) sh off x).1 * inv % (P : ℤ))) % (P : ℤ))
        h0' h1'
        (fun j hj => by
          have hh := hden (j + 1) (by simpa using Nat.succ_lt_succ hj)
          rw [List.getD_cons_succ] at hh
          rw [show off + 1 + j = off + (j + 1) from by omega]
          exact hh)
    refine ⟨out, by rw [hstep]; exact hout_eq, hob0, hob1, ?_⟩
    rw [hout_val]
    have hacc' : (((acc + y * ((lagrange_num_den (P : ℤ) sh off x).1 * inv % (P : ℤ)))
          % (P : ℤ) : ℤ) : ZMod P)
        = (acc : ZMod P) + (y : ZMod P)
            * (((lagrange_num_den (P : ℤ) sh off x).1 : ℤ) : ZMod P)
            * ((((lagrange_num_den (P : ℤ) sh off x).2 : ℤ) : ZMod P))⁻¹ := by
      rw [intCast_emod_eq]
      push_cast [intCast_emod_eq]
      rw [hinv_val]
      ring
    rw [hacc', List.length_cons, Finset.sum_range_succ']
    have hhead : (((((x, y) :: tl).getD 0 (0, 0)).2 : ZMod P)
          * (((lagrange_num_den (P : ℤ) sh (off + 0) (((x, y) :: tl).getD 0 (0, 0)).1).1 : ℤ) : ZMod P)
          * ((((lagrange_num_den (P : ℤ) sh (off + 0) (((x, y) :: tl).getD 0 (0, 0)).1).2 : ℤ) : ZMod P))⁻¹)
        = (y : ZMod P) * (((lagrange_num_den (P : ℤ) sh off x).1 : ℤ) : ZMod P)
            * ((((lagrange_num_den (P : ℤ) sh off x).2 : ℤ) : ZMod P))⁻¹ := by
      norm_num
    have hshift : ∑ j ∈ Finset.range tl.length,
          (((((x, y) :: tl).getD (j + 1) (0, 0)).2 : ZMod P)
            * (((lagrange_num_den (P : ℤ) sh (off + (j + 1)) (((x, y) :: tl).getD (j + 1) (0, 0)).1).1 : ℤ) : ZMod P)
            * ((((lagrange_num_den (P : ℤ) sh (off + (j + 1)) (((x, y) :: tl).getD (j + 1) (0, 0)).1).2 : ℤ) : ZMod P))⁻¹)
        = ∑ j ∈ Finset.range tl.length,
          (((tl.getD j (0, 0)).2 : ZMod P)
            * (((lagrange_num_den (P : ℤ) sh (off + 1 + j) (tl.getD j (0, 0)).1).1 : ℤ) : ZMod P)
            * ((((lagrange_num_den (P : ℤ) sh (off + 1 + j) (tl.getD j (0, 0)).1).2 : ℤ) : ZMod P))⁻¹) := by
      apply Finset.sum_congr rfl
      intro j hj
      rw [List.getD_cons_succ, show off + (j + 1) = off + 1 + j from by omega]
    rw [hhead, hshift]
    ring

/-- The polynomial over `ZMod P` whose coefficient list is `coeffs`
(the polynomial `generate_shares` evaluates via Horner's method). -/
noncomputable def PolyF (P : ℕ) (coeffs : List ℤ) : Polynomial (ZMod P) :=
  coeffs.foldr (fun c acc => Polynomial.C ((c : ℤ) : ZMod P) + Polynomial.X * acc) 0

theorem evaluate_polynomial_cast (P : ℕ) (coeffs : List ℤ) (x : ℤ) :
    ((evaluate_polynomial (P : ℤ) coeffs x : ℤ) : ZMod P)
      = (PolyF P coeffs).eval ((x : ℤ) : ZMod P) := by
  have hfold : ∀ (l : List ℤ) (acc : ℤ),
      ((l.foldl (fun result coefficient => (result * x + coefficient) % (P : ℤ)) acc : ℤ) : ZMod P)
        = l.foldl (fun (r : ZMod P) (c : ℤ) => r * ((x : ℤ) : ZMod P) + ((c : ℤ) : ZMod P))
            ((acc : ℤ) : ZMod P) := by
    intro l
    induction l with
    | nil => intro acc; rfl
    | cons c tl ih =>
      intro acc
      rw [List.foldl_cons, List.foldl_cons, ih]
      congr 1
      rw [intCast_emod_eq]
      push_cast
      ring
  show ((coeffs.reverse.foldl
      (fun result coefficient => (result * x + coefficient) % (P : ℤ)) 0 : ℤ) : ZMod P) = _
  rw [hfold, List.foldl_reverse, Int.cast_zero]
  induction coeffs with
  | nil => simp [PolyF]
  | cons c tl ih =>
    rw [List.foldr_cons, ih]
    show _ = (Polynomial.C ((c : ℤ) : ZMod P) + Polynomial.X * PolyF P tl).eval _
    rw [Polynomial.eval_add, Polynomial.eval_C, Polynomial.eval_mul, Polynomial.eval_X]
    ring

theorem PolyF_degree_lt (P : ℕ) (coeffs : List ℤ) :
    (PolyF P coeffs).degree < (coeffs.length : WithBot ℕ) := by
  induction coeffs with
  | nil =>
    show (0 : Polynomial (ZMod P)).degree < _
    rw [Polynomial.degree_zero]
    exact_mod_cast WithBot.bot_lt_coe (0 : ℕ)
  | cons c tl ih =>
    show (Polynomial.C ((c : ℤ) : ZMod P) + Polynomial.X * PolyF P tl).degree < _
    refine lt_of_le_of_lt (Polynomial.degree_add_le _ _) ?_
    rw [max_lt_iff]
    constructor
    · refine lt_of_le_of_lt Polynomial.degree_C_le ?_
      have h0 : ((0 : ℕ) : WithBot ℕ) < ((tl.length + 1 : ℕ) : WithBot ℕ) := by
        exact_mod_cast Nat.succ_pos tl.length
      simpa using h0
    · refine lt_of_le_of_lt (Polynomial.degree_mul_le _ _) ?_
      refine lt_of_le_of_lt (add_le_add_right Polynomial.degree_X_le _) ?_
      have h1 : (1 : WithBot ℕ) + (PolyF P tl).degree
          < 1 + (tl.length : WithBot ℕ) := by
        refine WithBot.add_lt_add_left ?_ ih
        have : ((1 : ℕ) : WithBot ℕ) ≠ ⊥ := WithBot.coe_ne_bot
        exact_mod_cast this
      refine lt_of_lt_of_le h1 (le_of_eq ?_)
      rw [List.length_cons]
      push_cast
      ring

theorem PolyF_eval_zero (P : ℕ) (c : ℤ) (tl : List ℤ) :
    (PolyF P (c :: tl)).eval 0 = ((c : ℤ) : ZMod P) := by
  show (Polynomial.C ((c : ℤ) : ZMod P) + Polynomial.X * PolyF P tl).eval 0 = _
  simp

theorem prod_ite_one_erase (P : ℕ) (s : Finset ℕ) (j : ℕ) (hj : j ∈ s)
    (f : ℕ → ZMod P) :
    ∏ m ∈ s, (if j = m then 1 else f m) = ∏ m ∈ s.erase j, f m := by
  rw [← Finset.mul_prod_erase s (fun m => if j = m then 1 else f m) hj]
  rw [if_pos rfl, one_mul]
  apply Finset.prod_congr rfl
  intro m hm
  exact if_neg (fun h => (Finset.mem_erase.mp hm).1 h.symm)

theorem eval_zero_interpolate (P : ℕ) [Fact P.Prime] (s : Finset ℕ)
    (v : ℕ → ZMod P) (r : ℕ → ZMod P) :
    (Lagrange.interpolate s v r).eval 0
      = ∑ i ∈ s, r i * ((∏ j ∈ s.erase i, -v j)
          * (∏ j ∈ s.erase i, (v i - v j))⁻¹) := by
  rw [Lagrange.interpolate_apply, Polynomial.eval_finset_sum]
  apply Finset.sum_congr rfl
  intro i hi
  rw [Polynomial.eval_mul, Polynomial.eval_C]
  congr 1
  have hb : ∀ j ∈ s.erase i,
      (Lagrange.basisDivisor (v i) (v j)).eval 0 = (v i - v j)⁻¹ * -v j := by
    intro j hj
    simp [Lagrange.basisDivisor]
  calc (Lagrange.basis s v i).eval 0
      = ∏ j ∈ s.erase i, (Lagrange.basisDivisor (v i) (v j)).eval 0 := by
        rw [show Lagrange.basis s v i
          = ∏ j ∈ s.erase i, Lagrange.basisDivisor (v i) (v j) from rfl]
        rw [Polynomial.eval_prod]
    _ = ∏ j ∈ s.erase i, (v i - v j)⁻¹ * -v j := Finset.prod_congr rfl hb
    _ = (∏ j ∈ s.erase i, -v j) * (∏ j ∈ s.erase i, (v i - v j))⁻¹ := by
        rw [Finset.prod_mul_distrib, Finset.prod_inv_distrib]
        ring

/-- Core correctness of the reconstruction loop: on a list of shares that
lie on the polynomial with coefficient list `coeffs` and whose x-coordinates
are pairwise distinct in `ZMod P`, `recon_aux` over the full enumeration
returns a value in `[0, P)` congruent to the constant coefficient. -/
theorem reconstruct_core (P : ℕ) [hPP : Fact P.Prime]
    (coeffs : List ℤ) (hcne : coeffs ≠ [])
    (sub : List (ℤ × ℤ))
    (hlen : sub.length = coeffs.length)
    (hvals : ∀ e ∈ sub, e.2 = evaluate_polynomial (P : ℤ) coeffs e.1)
    (hinj : ∀ j m, j < sub.length → m < sub.length → j ≠ m →
      (((sub.getD j (0, 0)).1 : ℤ) : ZMod P) ≠ (((sub.getD m (0, 0)).1 : ℤ) : ZMod P)) :
    ∃ out : ℤ, recon_aux (P : ℤ) sub sub.enum 0 = some out ∧
      0 ≤ out ∧ out < (P : ℤ) ∧
      (out : ZMod P) = ((coeffs.headD 0 : ℤ) : ZMod P) := by
  classical
  have hinj' : Set.InjOn (fun j => (((sub.getD j (0, 0)).1 : ℤ) : ZMod P))
      (Finset.range sub.length) := by
    intro a ha b hb hab
    by_contra hne
    exact hinj a b (by simpa using ha) (by simpa using hb) hne hab
  have hden : ∀ j, j < sub.length →
      (((lagrange_num_den (P : ℤ) sub (0 + j) (sub.getD j (0, 0)).1).2 : ℤ) : ZMod P) ≠ 0 := by
    intro j hj
    rw [show 0 + j = j from by omega]
    rw [(lagrange_num_den_cast P sub j (sub.getD j (0, 0)).1).2]
    rw [prod_ite_one_erase P (Finset.range sub.length) j (Finset.mem_range.mpr hj)
      (fun m => (((sub.getD j (0, 0)).1 : ℤ) : ZMod P) - (((sub.getD m (0, 0)).1 : ℤ) : ZMod P))]
    apply Finset.prod_ne_zero_iff.mpr
    intro m hm
    have hmne : m ≠ j := (Finset.mem_erase.mp hm).1
    have hmlt : m < sub.length := Finset.mem_range.mp (Finset.mem_erase.mp hm).2
    exact sub_ne_zero_of_ne (hinj j m hj hmlt (fun h => hmne h.symm))
  obtain ⟨out, hout, h0, h1, hval⟩ :=
    recon_aux_enumFrom_cast P sub sub 0 0 le_rfl
      (by exact_mod_cast hPP.out.pos) hden
  refine ⟨out, hout, h0, h1, ?_⟩
  rw [hval, Int.cast_zero, zero_add]
  have hdeg : (PolyF P coeffs).degree < (((Finset.range sub.length).card : ℕ) : WithBot ℕ) := by
    rw [Finset.card_range, hlen]
    exact PolyF_degree_lt P coeffs
  have hinterp := Lagrange.eq_interpolate (s := Finset.range sub.length)
    (v := fun j => (((sub.getD j (0, 0)).1 : ℤ) : ZMod P))
    (f := PolyF P coeffs) hinj' hdeg
  have heval0 := congrArg (Polynomial.eval 0) hinterp
  rw [eval_zero_interpolate] at heval0
  have hfeval0 : (PolyF P coeffs).eval 0 = ((coeffs.headD 0 : ℤ) : ZMod P) := by
    cases coeffs with
    | nil => exact absurd rfl hcne
    | cons c tl => exact PolyF_eval_zero P c tl
  have hnode : ∀ j ∈ Finset.range sub.length,
      (PolyF P coeffs).eval (((sub.getD j (0, 0)).1 : ℤ) : ZMod P)
        = (((sub.getD j (0, 0)).2 : ℤ) : ZMod P) := by
    intro j hj
    have hjk := Finset.mem_range.mp hj
    have hmem : sub.getD j (0, 0) ∈ sub := by
      rw [List.getD_eq_getElem sub (0, 0) hjk]
      exact List.getElem_mem hjk
    rw [hvals _ hmem, evaluate_polynomial_cast]
  rw [← hfeval0, heval0]
  apply Finset.sum_congr rfl
  intro j hj
  rw [show 0 + j = j from by omega]
  rw [(lagrange_num_den_cast P sub j (sub.getD j (0, 0)).1).1,
    (lagrange_num_den_cast P sub j (sub.getD j (0, 0)).1).2]
  rw [prod_ite_one_erase P (Finset.range sub.length) j hj
    (fun m => -(((sub.getD m (0, 0)).1 : ℤ) : ZMod P))]
  rw [prod_ite_one_erase P (Finset.range sub.length) j hj
    (fun m => (((sub.getD j (0, 0)).1 : ℤ) : ZMod P) - (((sub.getD m (0, 0)).1 : ℤ) : ZMod P))]
  rw [hnode j hj]
  ring

/-- Reconstruction helper: any `threshold`-sized selection (with distinct
ids) of the shares produced by `generate_shares` reconstructs the secret
exactly. -/
theorem reconstruct_of_generated (P : ℕ) (hP : P.Prime)
    (total_shares threshold : ℕ) (hth : 1 ≤ threshold)
    (htP : total_shares < P)
    (secret : ℤ) (hs0 : 0 ≤ secret) (hsP : secret < (P : ℤ))
    (rand : List ℤ) (hrlen : rand.length = threshold - 1)
    (shares : List (ℤ × ℤ))
    (hgen : generate_shares total_shares (P : ℤ) secret rand = some shares)
    (sub : List (ℤ × ℤ)) (hsubl : sub.length = threshold)
    (hmem : ∀ e ∈ sub, e ∈ shares)
    (hnodup : (sub.map Prod.fst).Nodup) :
    reconstruct_secret threshold (P : ℤ) sub = some secret := by
  haveI : Fact P.Prime := ⟨hP⟩
  unfold generate_shares at hgen
  rw [if_neg (not_le.mpr hsP)] at hgen
  have hgen' : shares = (List.range total_shares).map
      (fun i => (((i + 1 : ℕ) : ℤ),
        evaluate_polynomial (P : ℤ) (secret :: rand) ((i + 1 : ℕ) : ℤ))) :=
    (Option.some.inj hgen).symm
  have hprop : ∀ e ∈ sub,
      (∃ i : ℕ, i < total_shares ∧ e.1 = ((i + 1 : ℕ) : ℤ)) ∧
      e.2 = evaluate_polynomial (P : ℤ) (secret :: rand) e.1 := by
    intro e he
    have hesh := hmem e he
    rw [hgen'] at hesh
    obtain ⟨i, hi, hei⟩ := List.mem_map.mp hesh
    have hir : i < total_shares := List.mem_range.mp hi
    refine ⟨⟨i, hir, by rw [← hei]⟩, by rw [← hei]⟩
  have hxbound : ∀ e ∈ sub, 1 ≤ e.1 ∧ e.1 ≤ (total_shares : ℤ) := by
    intro e he
    obtain ⟨⟨i, hi, hx⟩, _⟩ := hprop e he
    constructor
    · rw [hx]
      exact_mod_cast Nat.succ_le_succ (Nat.zero_le i)
    · rw [hx]
      exact_mod_cast hi
  have hinj : ∀ j m, j < sub.length → m < sub.length → j ≠ m →
      (((sub.getD j (0, 0)).1 : ℤ) : ZMod P)
        ≠ (((sub.getD m (0, 0)).1 : ℤ) : ZMod P) := by
    intro j m hj hm hjm hcast
    have hj' : j < (sub.map Prod.fst).length := by simpa using hj
    have hm' : m < (sub.map Prod.fst).length := by simpa using hm
    have hgd_j : sub.getD j (0, 0) = sub[j] := List.getD_eq_getElem sub (0, 0) hj
    have hgd_m : sub.getD m (0, 0) = sub[m] := List.getD_eq_getElem sub (0, 0) hm
    have hmem_j : sub[j] ∈ sub := List.getElem_mem hj
    have hmem_m : sub[m] ∈ sub := List.getElem_mem hm
    obtain ⟨hb1j, hb2j⟩ := hxbound _ hmem_j
    obtain ⟨hb1m, hb2m⟩ := hxbound _ hmem_m
    have htPz : (total_shares : ℤ) < (P : ℤ) := by exact_mod_cast htP
    rw [hgd_j, hgd_m] at hcast
    have hmodeq : (sub[j]).1 ≡ (sub[m]).1 [ZMOD (P : ℤ)] :=
      (ZMod.intCast_eq_intCast_iff _ _ _).mp (by exact_mod_cast hcast)
    have hemod : (sub[j]).1 % (P : ℤ) = (sub[m]).1 % (P : ℤ) := hmodeq
    rw [Int.emod_eq_of_lt (by linarith) (by linarith),
      Int.emod_eq_of_lt (by linarith) (by linarith)] at hemod
    have hxeq : (sub.map Prod.fst)[j] = (sub.map Prod.fst)[m] := by
      rw [List.getElem_map, List.getElem_map]
      exact hemod
    exact hjm (hnodup.getElem_inj_iff.mp hxeq)
  have hlen : sub.length = (secret :: rand).length := by
    rw [hsubl, List.length_cons, hrlen]
    omega
  have hvals : ∀ e ∈ sub, e.2 = evaluate_polynomial (P : ℤ) (secret :: rand) e.1 :=
    fun e he => (hprop e he).2
  obtain ⟨out, hout, ho0, ho1, hov⟩ :=
    reconstruct_core P (secret :: rand) (by simp) sub hlen hvals hinj
  have houtsec : out = secret := by
    have hcast : (out : ZMod P) = (secret : ZMod P) := by simpa using hov
    have hmodeq : out ≡ secret [ZMOD (P : ℤ)] :=
      (ZMod.intCast_eq_intCast_iff _ _ _).mp (by exact_mod_cast hcast)
    have hemod : out % (P : ℤ) = secret % (P : ℤ) := hmodeq
    rwa [Int.emod_eq_of_lt ho0 ho1, Int.emod_eq_of_lt hs0 hsP] at hemod
  unfold reconstruct_secret
  rw [if_neg (by omega)]
  rw [show sub.take threshold = sub from by
    rw [← hsubl]
    exact List.take_length sub]
  rw [hout, houtsec]

/-- `reconstruct_secret` ignores everything after the first `threshold`
shares: appending extra shares to a `threshold`-sized list changes
nothing. -/
theorem reconstruct_append (threshold : ℕ) (p : ℤ) (sub extra : List (ℤ × ℤ))
    (h : sub.length = threshold) :
    reconstruct_secret threshold p (sub ++ extra)
      = reconstruct_secret threshold p sub := by
  unfold reconstruct_secret
  rw [if_neg (by rw [List.length_append]; omega), if_neg (by omega)]
  rw [show (sub ++ extra).take threshold = sub from by
    rw [← h]
    exact List.take_left sub extra]
  rw [show sub.take threshold = sub from by
    rw [← h]
    exact List.take_length sub]

/-- `reconstruct_secret` on any list with at least `threshold` shares
agrees with `reconstruct_secret` on its first `threshold` shares. -/
theorem reconstruct_take (threshold : ℕ) (p : ℤ) (l : List (ℤ × ℤ))
    (h : threshold ≤ l.length) :
    reconstruct_secret threshold p l
      = reconstruct_secret threshold p (l.take threshold) := by
  unfold reconstruct_secret
  rw [if_neg (by omega), if_neg (by rw [List.length_take]; omega)]
  rw [show (l.take threshold).take threshold = l.take threshold from by
    rw [List.take_take]
    simp]

/-! ## Claim C3 -/

/-- Claim C3: for every secret `s ∈ [0, prime)`, every
`total_shares ≥ threshold ≥ 1` (with `total_shares < prime` so that the
share ids stay distinct in the field), every choice of the random
coefficients and every selection of exactly `threshold` of the generated
shares (distinct ids, any order), `reconstruct_secret` returns exactly the
secret; and on longer lists the result depends only on the first
`threshold` shares supplied. -/
theorem shamir_reconstruct (P : ℕ) (hP : P.Prime)
    (total_shares threshold : ℕ) (hth : 1 ≤ threshold)
    (htt : threshold ≤ total_shares) (htP : total_shares < P)
    (secret : ℤ) (hs0 : 0 ≤ secret) (hsP : secret < (P : ℤ))
    (rand : List ℤ) (hrlen : rand.length = threshold - 1)
    (shares : List (ℤ × ℤ))
    (hgen : generate_shares total_shares (P : ℤ) secret rand = some shares)
    (sub : List (ℤ × ℤ)) (hsubl : sub.length = threshold)
    (hmem : ∀ e ∈ sub, e ∈ shares)
    (hnodup : (sub.map Prod.fst).Nodup) :
    reconstruct_secret threshold (P : ℤ) sub = some secret ∧
    ∀ extra : List (ℤ × ℤ),
      reconstruct_secret threshold (P : ℤ) (sub ++ extra) = some secret := by
  have h1 := reconstruct_of_generated P hP total_shares threshold hth htP
    secret hs0 hsP rand hrlen shares hgen sub hsubl hmem hnodup
  exact ⟨h1, fun extra => by rw [reconstruct_append threshold _ sub extra hsubl]; exact h1⟩

/-- Claim C3 witness: `prime = 11`, `total = 3`, `threshold = 2`,
`secret = 5`, random coefficient `3`; the generated shares are
`[(1,8), (2,0), (3,3)]`, and the subset `[(3,3), (1,8)]` (out of order)
reconstructs `5`, also with the extra share `(2,0)` appended. -/
theorem shamir_reconstruct_witness :
    Nat.Prime 11 ∧
    reconstruct_secret 2 ((11 : ℕ) : ℤ) [(3, 3), (1, 8)] = some 5 ∧
    reconstruct_secret 2 ((11 : ℕ) : ℤ) ([(3, 3), (1, 8)] ++ [(2, 0)]) = some 5 := by
  have h := shamir_reconstruct 11 (by norm_num) 3 2 (by norm_num) (by norm_num)
    (by norm_num) 5 (by norm_num) (by norm_num) [3] (by norm_num)
    [(1, 8), (2, 0), (3, 3)] (by decide)
    [(3, 3), (1, 8)] (by norm_num) (by decide) (by decide)
  exact ⟨by norm_num, h.1, h.2 [(2, 0)]⟩

/-! ## Claim C6 (corrected) -/

/-- Claim C6 counterexample: with `prime = 11`, `threshold = 2`, the
shares `(1,8), (2,0), (3,3)` all lie on the degree-1 polynomial
`5 + 3x mod 11` (first three conjuncts), so the candidate `(3,3)` lies on
the polynomial interpolated through the other shares `[(1,8), (2,0)]` at
its own x-coordinate — yet `verify_share` returns `false`, because it
evaluates the constant polynomial `[reconstructed secret]` instead of the
interpolated one. -/
theorem verify_share_counterexample :
    evaluate_polynomial 11 [5, 3] 1 = 8 ∧
    evaluate_polynomial 11 [5, 3] 2 = 0 ∧
    evaluate_polynomial 11 [5, 3] 3 = 3 ∧
    verify_share 2 11 (3, 3) [(1, 8), (2, 0)] = false := by decide

/-- Claim C6 amended: `verify_share` returns `true` trivially on fewer
than `threshold - 1` other shares; on exactly `threshold - 1` other shares
it always returns `false` (the internal reconstruction demands `threshold`
shares and the raised exception is swallowed by the bare `except`); and on
at least `threshold` other shares whose first `threshold` are valid
generated shares with distinct ids it returns `true` iff the candidate's
value equals the secret reconstructed from those first `threshold` other
shares — the constant polynomial `[reconstructed]` evaluated at the
candidate's x — not the interpolated polynomial at the candidate's
x-coordinate. -/
theorem verify_share_spec (P : ℕ) (hP : P.Prime)
    (total_shares threshold : ℕ) (hth : 1 ≤ threshold)
    (htt : threshold ≤ total_shares) (htP : total_shares < P)
    (secret : ℤ) (hs0 : 0 ≤ secret) (hsP : secret < (P : ℤ))
    (rand : List ℤ) (hrlen : rand.length = threshold - 1)
    (shares : List (ℤ × ℤ))
    (hgen : generate_shares total_shares (P : ℤ) secret rand = some shares)
    (others : List (ℤ × ℤ)) (hol : threshold ≤ others.length)
    (hmem : ∀ e ∈ others.take threshold, e ∈ shares)
    (hnodup : ((others.take threshold).map Prod.fst).Nodup)
    (candidate : ℤ × ℤ) :
    (∀ (t : ℕ) (p : ℤ) (sh : ℤ × ℤ) (os : List (ℤ × ℤ)),
      os.length < t - 1 → verify_share t p sh os = true) ∧
    (∀ (t : ℕ) (p : ℤ) (sh : ℤ × ℤ) (os : List (ℤ × ℤ)),
      1 ≤ t → os.length = t - 1 → verify_share t p sh os = false) ∧
    (verify_share threshold (P : ℤ) candidate others = true ↔
      candidate.2 = secret) := by
  refine ⟨?_, ?_, ?_⟩
  · intro t p sh os h
    unfold verify_share
    rw [if_pos h]
  · intro t p sh os ht hos
    unfold verify_share
    rw [if_neg (by omega)]
    have hrec : reconstruct_secret t p os = none := by
      unfold reconstruct_secret
      rw [if_pos (by omega)]
    rw [hrec]
  · have htake : (others.take threshold).length = threshold := by
      rw [List.length_take]
      omega
    have hrec0 := reconstruct_of_generated P hP total_shares threshold hth htP
      secret hs0 hsP rand hrlen shares hgen (others.take threshold) htake
      hmem hnodup
    have hrec : reconstruct_secret threshold (P : ℤ) others = some secret := by
      rw [reconstruct_take threshold (P : ℤ) others hol]
      exact hrec0
    unfold verify_share
    rw [if_neg (by omega), hrec]
    show (evaluate_polynomial (P : ℤ) [secret] candidate.1 == candidate.2) = true ↔ _
    have heval : evaluate_polynomial (P : ℤ) [secret] candidate.1 = secret := by
      show (0 * candidate.1 + secret) % (P : ℤ) = secret
      rw [zero_mul, zero_add, Int.emod_eq_of_lt hs0 hsP]
    rw [heval]
    constructor
    · intro h
      exact (beq_iff_eq.mp h).symm
    · intro h
      rw [h]
      exact beq_self_eq_true secret

/-- Claim C6 witness: `prime = 11`, `threshold = 2`, the generated shares
`[(1,8), (2,0), (3,3)]`: with no other shares `verify_share` is trivially
`true`; with exactly one other share it is `false`; and given all three
generated shares as `others` (a list longer than `threshold`) the
candidate `(3,3)` is accepted iff its value equals the secret `5`
reconstructed from the first two of them (it is not, and indeed
`verify_share` rejects it even though it lies on the sharing
polynomial). -/
theorem verify_share_spec_witness :
    Nat.Prime 11 ∧
    verify_share 2 ((11 : ℕ) : ℤ) (9, 9) [] = true ∧
    verify_share 2 ((11 : ℕ) : ℤ) (9, 9) [(1, 8)] = false ∧
    (verify_share 2 ((11 : ℕ) : ℤ) (3, 3) [(1, 8), (2, 0), (3, 3)] = true ↔
      ((3 : ℤ), (3 : ℤ)).2 = 5) := by
  have h := verify_share_spec 11 (by norm_num) 3 2 (by norm_num) (by norm_num)
    (by norm_num) 5 (by norm_num) (by norm_num) [3] (by norm_num)
    [(1, 8), (2, 0), (3, 3)] (by decide)
    [(1, 8), (2, 0), (3, 3)] (by norm_num) (by decide) (by decide) (3, 3)
  exact ⟨by norm_num, h.1 2 _ (9, 9) [] (by norm_num),
    h.2.1 2 _ (9, 9) [(1, 8)] (by norm_num) (by norm_num), h.2.2⟩

/-- Claim C3 counterexample: as stated — with no relation between
`total_shares` and the prime and no lower bound on the secret — the claim
fails.  With `prime = 5`, `threshold = 2`, `total_shares = 6`,
`secret = 0`, coefficient `1`, the generated subset `[(1,1), (6,1)]`
(two distinct share ids) makes reconstruction raise (`none`): the ids
collide mod 5 and the Lagrange denominator is not invertible.  And the
negative secret `-1 < prime` is reconstructed as `4`, not `-1`. -/
theorem shamir_reconstruct_counterexample :
    (generate_shares 6 5 0 [1]
        = some [(1, 1), (2, 2), (3, 3), (4, 4), (5, 0), (6, 1)] ∧
      reconstruct_secret 2 5 [(1, 1), (6, 1)] = none) ∧
    (generate_shares 2 5 (-1) [1] = some [(1, 0), (2, 1)] ∧
      reconstruct_secret 2 5 [(1, 0), (2, 1)] = some 4) := by decide
